import Mathlib

/-!
A shallow embedding of the type-level DFA engine in `src/main.cpp`.

The C++ source encodes each DFA state as a distinct type
`Node<accept, Edge<c1, N1>, Edge<c2, N2>, ...>`; states reference one
another directly at the type level (cycles included, via forward
declarations).  The embedding represents that state graph as an arena:
an `Automaton` is a list of node records, and an edge stores the arena
index of its destination node, so cyclic graphs are representable.
Characters (`char`) are modelled as byte values (`Nat`), with `0`
playing the role of `'\0'`.

Correspondence with the source:
  * `EdgeT`, `EdgeT.check`          — `Edge<C, NEXT_NODE>` and `Edge::check`
  * `NodeT`, `NodeT.match_any`      — `Node<accept, EDGES...>`, `Node::match_any`
  * `transitionFinder`              — `TransitionFinder<c, NODE, EDGES...>::result`
  * `NodeT.nextIdx`                 — `Node::next<c>`
  * `firstMatch`                    — the short-circuiting fold over `EDGES`
                                      inside `Node::dispatch` (first edge whose
                                      `check(c)` holds wins, `false` otherwise)
  * `dispatch`                      — `Node::dispatch` (= `RTDFARunner::helper`)
  * `rtRun`                         — `RTDFARunner::run`
  * `ctRun`                         — `CTDFARunner<CURRENT, S, INDEX>::run`
  * `literal`                       — the `FixedString` built from a string
                                      literal: the characters followed by the
                                      terminating `'\0'` byte
-/

namespace DFA

/-- A single byte, the alphabet of the automaton (C++ `char`). -/
abbrev Byte := Nat

/-- The NUL byte `'\0'`. -/
def nul : Byte := 0

/-- `Edge<C, NEXT_NODE>`: one character label plus the destination node,
referenced by its arena index. -/
structure EdgeT where
  label : Byte
  next : Nat
deriving DecidableEq

/-- `Edge::check(char c) { return c == C; }` -/
def EdgeT.check (e : EdgeT) (c : Byte) : Bool := c == e.label

/-- `Node<accept, EDGES...>`: an accept flag and an ordered sequence of
outgoing edges. -/
structure NodeT where
  accept : Bool
  edges : List EdgeT
deriving DecidableEq

/-- `Node::is_terminal`: a node with no outgoing edges. -/
def NodeT.is_terminal (n : NodeT) : Bool := n.edges.length == 0

/-- `Node::match_any<c> = (EDGES::check(c) || ...)`: some edge matches `c`. -/
def NodeT.match_any (n : NodeT) (c : Byte) : Bool := n.edges.any (fun e => e.check c)

/-- The automaton: the arena of nodes the type-level state graph is
flattened into.  A node is designated by its index in `nodes`. -/
structure Automaton where
  nodes : List NodeT
deriving DecidableEq

/-- Arena lookup.  In the C++ source a node reference is a type and is
always valid; out-of-range indices (which a well-formed automaton never
produces) fall back to an inert reject node. -/
def Automaton.node (A : Automaton) (i : Nat) : NodeT := A.nodes.getD i ⟨false, []⟩

/-- Every edge of every node points inside the arena: the counterpart of
the fact that C++ edge destinations are always real `Node` types. -/
def WellFormed (A : Automaton) : Prop :=
  ∀ n ∈ A.nodes, ∀ e ∈ n.edges, e.next < A.nodes.length

/-- No state carries two transitions with the same label (a strictly
deterministic automaton). -/
def NoDupLabels (A : Automaton) : Prop :=
  ∀ n ∈ A.nodes, (n.edges.map EdgeT.label).Nodup

/-- `TransitionFinder<c, NODE, EDGES...>::result`: the destination of the
first edge whose `check(c)` holds; when the edge list is exhausted the
result is `NODE` itself (`self`, the index of the node being searched). -/
def transitionFinder (c : Byte) (self : Nat) : List EdgeT → Nat
  | [] => self
  | e :: rest => if e.check c then e.next else transitionFinder c self rest

/-- `Node::next<c>`: resolve `c` from this node (`self` is the node's own
arena index, standing for the `NODE` fallback parameter). -/
def NodeT.nextIdx (n : NodeT) (self : Nat) (c : Byte) : Nat :=
  transitionFinder c self n.edges

/-- The short-circuiting fold inside `Node::dispatch`:
`((EDGES::check(c) ? (result = helper(input, index+1), true) : false) || ...)`
selects the first edge whose `check(c)` holds; `none` when no edge matches
(in which case `result` keeps its initial value `false`). -/
def firstMatch (c : Byte) : List EdgeT → Option Nat
  | [] => none
  | e :: rest => if e.check c then some e.next else firstMatch c rest

/-- `Node::dispatch(input, index)` (the body of `RTDFARunner::helper`):
return `accept` once the index reaches the end of the input, otherwise
recurse at the first matching edge's destination with `index + 1`, and
return `false` when no edge matches `input[index]`. -/
def dispatch (A : Automaton) (i : Nat) (input : List Byte) (index : Nat) : Bool :=
  if _h : input.length ≤ index then (A.node i).accept
  else
    match firstMatch (input.getD index nul) (A.node i).edges with
    | some d => dispatch A d input (index + 1)
    | none => false
termination_by input.length - index
decreasing_by omega

/-- `RTDFARunner::run(input) = helper(input, 0)`. -/
def rtRun (A : Automaton) (i : Nat) (input : List Byte) : Bool :=
  dispatch A i input 0

/-- `CTDFARunner<CURRENT, S, INDEX>::run()`: read `c = S.data[INDEX]`;
a NUL byte means end of the literal and yields `accept`; otherwise advance
through `next<c>` when `match_any<c>` holds and reject when it does not.
(`S.getD index nul` models `S.data[INDEX]`; for the NUL-terminated arrays
`FixedString` is built from, the index never leaves the array.) -/
def ctRun (A : Automaton) (i : Nat) (S : List Byte) (index : Nat) : Bool :=
  if hc : S.getD index nul = nul then (A.node i).accept
  else if (A.node i).match_any (S.getD index nul) then
    ctRun A ((A.node i).nextIdx i (S.getD index nul)) S (index + 1)
  else false
termination_by S.length - index
decreasing_by
  have hi : index < S.length := by
    rcases Nat.lt_or_ge index S.length with h | h
    · exact h
    · exact absurd (List.getD_eq_default S nul h) hc
  omega

/-- The `FixedString` array built from a string literal whose characters
are `s`: the characters followed by the terminating `'\0'`. -/
def literal (s : List Byte) : List Byte := s ++ [nul]

/-- Fuel-indexed variant of `dispatch`: `none` when the given number of
recursion frames does not suffice, `some` of the verdict otherwise.
Used to state the N+1 recursion-depth bound. -/
def dispatchFuel (A : Automaton) : Nat → Nat → List Byte → Nat → Option Bool
  | 0, _, _, _ => none
  | fuel + 1, i, input, index =>
    if input.length ≤ index then some (A.node i).accept
    else
      match firstMatch (input.getD index nul) (A.node i).edges with
      | some d => dispatchFuel A fuel d input (index + 1)
      | none => some false

/-- Fuel-indexed variant of `ctRun`, likewise bounding the recursion
depth of the static evaluator. -/
def ctRunFuel (A : Automaton) : Nat → Nat → List Byte → Nat → Option Bool
  | 0, _, _, _ => none
  | fuel + 1, i, S, index =>
    if S.getD index nul = nul then some (A.node i).accept
    else if (A.node i).match_any (S.getD index nul) then
      ctRunFuel A fuel ((A.node i).nextIdx i (S.getD index nul)) S (index + 1)
    else some false

/-- A template argument supplied to `Node<accept, ...>`: either an
`Edge<label, destination>` instantiation or some other type (`otherArg`,
tagged arbitrarily — e.g. `int`). -/
inductive TypeArg where
  | edgeArg (label : Byte) (next : Nat)
  | otherArg (tag : Nat)
deriving DecidableEq

/-- `is_edge_v<T>`: `true` exactly on `Edge<label, destination>`
instantiations. -/
def is_edge : TypeArg → Bool
  | .edgeArg _ _ => true
  | .otherArg _ => false

/-- The construction-time contract of `Node`:
`static_assert((is_edge_v<EDGES> && ...))` — every template argument in
the transition pack must be an `Edge`. -/
def nodeAssert (args : List TypeArg) : Bool := args.all is_edge

/-! ### Test fixtures from the source -/

/-- `DFA_01_STAR`: Q0(accept)—'0'→Q1, Q1—'1'→Q2, Q2(accept)—'0'→Q3,
Q3—'1'→Q2, flattened with Q0..Q3 at indices 0..3 ('0' = 48, '1' = 49). -/
def dfa01Star : Automaton :=
  ⟨[⟨true, [⟨48, 1⟩]⟩, ⟨false, [⟨49, 2⟩]⟩, ⟨true, [⟨48, 3⟩]⟩, ⟨false, [⟨49, 2⟩]⟩]⟩

/-- `DFA_BRANCH`: Q0—'0'→Q1, Q0—'1'→Q2, Q1(accept), Q2(accept), with
Q0..Q2 at indices 0..2. -/
def dfaBranch : Automaton :=
  ⟨[⟨false, [⟨48, 1⟩, ⟨49, 2⟩]⟩, ⟨true, []⟩, ⟨true, []⟩]⟩

/-- A single accepting node with no outgoing edges (`Node<true>`). -/
def acceptOnly : Automaton := ⟨[⟨true, []⟩]⟩

/-- A node with an edge labelled `'\0'` to an accepting node: the
dynamic evaluator treats NUL as an ordinary matchable label. -/
def nulEdgeAut : Automaton := ⟨[⟨false, [⟨nul, 1⟩]⟩, ⟨true, []⟩]⟩

/-- A state with two edges sharing the label '0' but different
destinations (index 1 accepting, index 2 rejecting). -/
def dupLabelAut : Automaton :=
  ⟨[⟨false, [⟨48, 1⟩, ⟨48, 2⟩]⟩, ⟨true, []⟩, ⟨false, []⟩]⟩

/-- A state with two edges sharing the label `'\0'` but different
destinations: for the resolver and the dynamic scan, even the NUL byte
is an ordinary label. -/
def dupNulAut : Automaton :=
  ⟨[⟨false, [⟨nul, 1⟩, ⟨nul, 2⟩]⟩, ⟨true, []⟩, ⟨false, []⟩]⟩

end DFA

namespace DFA

/-! ### Lemmas about edge matching -/

theorem firstMatch_isSome_iff (c : Byte) (edges : List EdgeT) :
    (firstMatch c edges).isSome = edges.any (fun e => e.check c) := by
  induction edges with
  | nil => rfl
  | cons e rest ih =>
    simp only [firstMatch, List.any_cons]
    by_cases h : e.check c
    · simp [h]
    · simp [h, ih]

theorem match_any_eq_isSome (n : NodeT) (c : Byte) :
    n.match_any c = (firstMatch c n.edges).isSome := by
  rw [NodeT.match_any, ← firstMatch_isSome_iff]

theorem transitionFinder_eq_getD (c : Byte) (self : Nat) (edges : List EdgeT) :
    transitionFinder c self edges = (firstMatch c edges).getD self := by
  induction edges with
  | nil => rfl
  | cons e rest ih =>
    simp only [transitionFinder, firstMatch]
    by_cases h : e.check c
    · simp [h]
    · simp [h, ih]

theorem firstMatch_append (c : Byte) (pre : List EdgeT) (e : EdgeT) (rest : List EdgeT)
    (hpre : ∀ x ∈ pre, x.check c = false) (he : e.check c = true) :
    firstMatch c (pre ++ e :: rest) = some e.next := by
  induction pre with
  | nil => simp [firstMatch, he]
  | cons p ps ih =>
    have hp : p.check c = false := hpre p (List.mem_cons_self p ps)
    simp only [List.cons_append, firstMatch, hp, Bool.false_eq_true, if_false]
    exact ih (fun x hx => hpre x (List.mem_cons_of_mem p hx))

theorem firstMatch_eq_some (c : Byte) (edges : List EdgeT) (d : Nat)
    (h : firstMatch c edges = some d) :
    ∃ pre e rest, edges = pre ++ e :: rest ∧ (∀ x ∈ pre, x.check c = false) ∧
      e.check c = true ∧ e.next = d := by
  induction edges with
  | nil => simp [firstMatch] at h
  | cons e rest ih =>
    by_cases he : e.check c
    · refine ⟨[], e, rest, rfl, by simp, he, ?_⟩
      simpa [firstMatch, he] using h
    · have h' : firstMatch c rest = some d := by
        simpa [firstMatch, he] using h
      obtain ⟨pre, e', rest', heq, hpre, hce, hnext⟩ := ih h'
      refine ⟨e :: pre, e', rest', by simp [heq], ?_, hce, hnext⟩
      intro x hx
      rcases List.mem_cons.mp hx with hx | hx
      · simpa [hx] using he
      · exact hpre x hx

theorem firstMatch_eq_none_iff (c : Byte) (edges : List EdgeT) :
    firstMatch c edges = none ↔ ∀ x ∈ edges, x.check c = false := by
  induction edges with
  | nil => simp [firstMatch]
  | cons e rest ih =>
    by_cases he : e.check c
    · simp [firstMatch, he]
    · simp only [firstMatch, he, Bool.false_eq_true, if_false, ih, List.mem_cons]
      constructor
      · intro h x hx
        rcases hx with hx | hx
        · simpa [hx] using he
        · exact h x hx
      · intro h x hx
        exact h x (Or.inr hx)

/-! ### Unfolding lemmas for the two evaluators -/

theorem dispatch_end (A : Automaton) (i : Nat) (input : List Byte) (index : Nat)
    (h : input.length ≤ index) : dispatch A i input index = (A.node i).accept := by
  rw [dispatch.eq_def, dif_pos h]

theorem dispatch_step_some (A : Automaton) (i : Nat) (input : List Byte) (index d : Nat)
    (h : index < input.length)
    (hfm : firstMatch (input.getD index nul) (A.node i).edges = some d) :
    dispatch A i input index = dispatch A d input (index + 1) := by
  rw [dispatch.eq_def, dif_neg (Nat.not_le.mpr h), hfm]

theorem dispatch_step_none (A : Automaton) (i : Nat) (input : List Byte) (index : Nat)
    (h : index < input.length)
    (hfm : firstMatch (input.getD index nul) (A.node i).edges = none) :
    dispatch A i input index = false := by
  rw [dispatch.eq_def, dif_neg (Nat.not_le.mpr h), hfm]

theorem ctRun_nul (A : Automaton) (i : Nat) (S : List Byte) (index : Nat)
    (h : S.getD index nul = nul) : ctRun A i S index = (A.node i).accept := by
  rw [ctRun.eq_def, dif_pos h]

theorem ctRun_advance (A : Automaton) (i : Nat) (S : List Byte) (index : Nat) (c : Byte)
    (hgd : S.getD index nul = c) (hcne : c ≠ nul)
    (hma : (A.node i).match_any c = true) :
    ctRun A i S index = ctRun A ((A.node i).nextIdx i c) S (index + 1) := by
  subst hgd
  rw [ctRun.eq_def, dif_neg hcne, if_pos hma]

theorem ctRun_reject (A : Automaton) (i : Nat) (S : List Byte) (index : Nat) (c : Byte)
    (hgd : S.getD index nul = c) (hcne : c ≠ nul)
    (hma : (A.node i).match_any c = false) :
    ctRun A i S index = false := by
  subst hgd
  rw [ctRun.eq_def, dif_neg hcne, hma]
  rfl

/-! ### Facts about literals (NUL-terminated arrays) -/

theorem literal_getD_lt (s : List Byte) (index : Nat) (h : index < s.length) :
    (literal s).getD index nul = s.getD index nul :=
  List.getD_append s [nul] nul index h

theorem singleton_nul_getD (m : Nat) : [nul].getD m nul = nul := by
  cases m <;> rfl

theorem literal_getD_ge (s : List Byte) (index : Nat) (h : s.length ≤ index) :
    (literal s).getD index nul = nul := by
  rw [literal, List.getD_append_right s [nul] nul index h]
  exact singleton_nul_getD _

theorem getD_ne_nul_of_not_mem (s : List Byte) (hs : nul ∉ s) (index : Nat)
    (h : index < s.length) : s.getD index nul ≠ nul := by
  rw [List.getD_eq_getElem s nul h]
  intro heq
  exact hs (heq ▸ List.getElem_mem h)

/-! ### Fuel lemmas: the fuelled evaluators agree with the evaluators -/

theorem dispatchFuel_sound (A : Automaton) :
    ∀ (k i : Nat) (input : List Byte) (index : Nat) (b : Bool),
      dispatchFuel A k i input index = some b → dispatch A i input index = b := by
  intro k
  induction k with
  | zero => intro i input index b h; simp [dispatchFuel] at h
  | succ fuel ih =>
    intro i input index b h
    rw [dispatchFuel] at h
    by_cases hle : input.length ≤ index
    · rw [if_pos hle] at h
      rw [dispatch_end A i input index hle]
      exact Option.some.inj h
    · rw [if_neg hle] at h
      have hlt : index < input.length := Nat.lt_of_not_le hle
      cases hfm : firstMatch (input.getD index nul) (A.node i).edges with
      | some d =>
        rw [hfm] at h
        rw [dispatch_step_some A i input index d hlt hfm]
        exact ih d input (index + 1) b h
      | none =>
        rw [hfm] at h
        rw [dispatch_step_none A i input index hlt hfm]
        exact Option.some.inj h

theorem ctRunFuel_sound (A : Automaton) :
    ∀ (k i : Nat) (S : List Byte) (index : Nat) (b : Bool),
      ctRunFuel A k i S index = some b → ctRun A i S index = b := by
  intro k
  induction k with
  | zero => intro i S index b h; simp [ctRunFuel] at h
  | succ fuel ih =>
    intro i S index b h
    rw [ctRunFuel] at h
    by_cases hc : S.getD index nul = nul
    · rw [if_pos hc] at h
      rw [ctRun_nul A i S index hc]
      exact Option.some.inj h
    · rw [if_neg hc] at h
      by_cases hma : (A.node i).match_any (S.getD index nul)
      · rw [if_pos hma] at h
        rw [ctRun_advance A i S index _ rfl hc hma]
        exact ih _ S (index + 1) b h
      · rw [if_neg hma] at h
        rw [ctRun_reject A i S index _ rfl hc (Bool.not_eq_true _ ▸ hma)]
        exact Option.some.inj h

theorem dispatchFuel_complete (A : Automaton) :
    ∀ (k i : Nat) (input : List Byte) (index : Nat), input.length - index < k →
      dispatchFuel A k i input index = some (dispatch A i input index) := by
  intro k
  induction k with
  | zero => intro i input index h; omega
  | succ fuel ih =>
    intro i input index h
    rw [dispatchFuel]
    by_cases hle : input.length ≤ index
    · rw [if_pos hle, dispatch_end A i input index hle]
    · have hlt : index < input.length := Nat.lt_of_not_le hle
      rw [if_neg hle]
      cases hfm : firstMatch (input.getD index nul) (A.node i).edges with
      | some d =>
        rw [dispatch_step_some A i input index d hlt hfm]
        exact ih d input (index + 1) (by omega)
      | none => rw [dispatch_step_none A i input index hlt hfm]

theorem ctRunFuel_literal_complete (A : Automaton) (s : List Byte) :
    ∀ (k i index : Nat), index ≤ s.length → s.length - index < k →
      ctRunFuel A k i (literal s) index = some (ctRun A i (literal s) index) := by
  intro k
  induction k with
  | zero => intro i index _ h; omega
  | succ fuel ih =>
    intro i index hle h
    rw [ctRunFuel]
    by_cases hne : (literal s).getD index nul = nul
    · rw [if_pos hne, ctRun_nul A i (literal s) index hne]
    · have hlt : index < s.length := by
        rcases Nat.lt_or_ge index s.length with h' | h'
        · exact h'
        · exact absurd (literal_getD_ge s index h') hne
      rw [if_neg hne]
      by_cases hma : (A.node i).match_any ((literal s).getD index nul)
      · rw [if_pos hma, ctRun_advance A i (literal s) index _ rfl hne hma]
        exact ih _ (index + 1) (by omega) (by omega)
      · rw [if_neg hma,
          ctRun_reject A i (literal s) index _ rfl hne (Bool.not_eq_true _ ▸ hma)]

/-! ### Agreement of the two evaluators on NUL-free strings -/

theorem agree_aux (A : Automaton) (s : List Byte) (hs : nul ∉ s) :
    ∀ (k i index : Nat), s.length ≤ index + k →
      ctRun A i (literal s) index = dispatch A i s index := by
  intro k
  induction k with
  | zero =>
    intro i index h
    rw [ctRun_nul A i (literal s) index (literal_getD_ge s index (by omega)),
      dispatch_end A i s index (by omega)]
  | succ k ih =>
    intro i index h
    by_cases hend : s.length ≤ index
    · rw [ctRun_nul A i (literal s) index (literal_getD_ge s index hend),
        dispatch_end A i s index hend]
    · have hlt : index < s.length := Nat.lt_of_not_le hend
      have hc : (literal s).getD index nul = s.getD index nul := literal_getD_lt s index hlt
      have hne : s.getD index nul ≠ nul := getD_ne_nul_of_not_mem s hs index hlt
      cases hfm : firstMatch (s.getD index nul) (A.node i).edges with
      | some d =>
        have hma : (A.node i).match_any (s.getD index nul) = true := by
          rw [match_any_eq_isSome, hfm]; rfl
        have hnext : (A.node i).nextIdx i (s.getD index nul) = d := by
          rw [NodeT.nextIdx, transitionFinder_eq_getD, hfm]; rfl
        rw [ctRun_advance A i (literal s) index (s.getD index nul) hc hne hma, hnext,
          dispatch_step_some A i s index d hlt hfm]
        exact ih d (index + 1) (by omega)
      | none =>
        have hma : (A.node i).match_any (s.getD index nul) = false := by
          rw [match_any_eq_isSome, hfm]; rfl
        rw [ctRun_reject A i (literal s) index (s.getD index nul) hc hne hma,
          dispatch_step_none A i s index hlt hfm]

theorem ctRun_eq_dispatch (A : Automaton) (i : Nat) (s : List Byte) (hs : nul ∉ s) :
    ctRun A i (literal s) 0 = dispatch A i s 0 :=
  agree_aux A s hs s.length i 0 (by omega)

/-! ### The static evaluator stops at the first NUL byte -/

theorem ctRun_nulsplit_aux (A : Automaton) (s t : List Byte) (hs : nul ∉ s) :
    ∀ (k i index : Nat), index ≤ s.length → s.length ≤ index + k →
      ctRun A i (s ++ nul :: t) index = ctRun A i (literal s) index := by
  intro k
  induction k with
  | zero =>
    intro i index hle h
    have hend : index = s.length := by omega
    have hc : (s ++ nul :: t).getD index nul = nul := by
      rw [List.getD_append_right s (nul :: t) nul index (by omega), hend]
      simp [List.getD]
    rw [ctRun_nul A i (s ++ nul :: t) index hc,
      ctRun_nul A i (literal s) index (literal_getD_ge s index (by omega))]
  | succ k ih =>
    intro i index hle h
    by_cases hend : s.length ≤ index
    · have heq : index = s.length := by omega
      have hc : (s ++ nul :: t).getD index nul = nul := by
        rw [List.getD_append_right s (nul :: t) nul index hend, heq]
        simp [List.getD]
      rw [ctRun_nul A i (s ++ nul :: t) index hc,
        ctRun_nul A i (literal s) index (literal_getD_ge s index hend)]
    · have hlt : index < s.length := Nat.lt_of_not_le hend
      have hc1 : (s ++ nul :: t).getD index nul = s.getD index nul :=
        List.getD_append s (nul :: t) nul index hlt
      have hc2 : (literal s).getD index nul = s.getD index nul := literal_getD_lt s index hlt
      have hne : s.getD index nul ≠ nul := getD_ne_nul_of_not_mem s hs index hlt
      by_cases hma : (A.node i).match_any (s.getD index nul)
      · rw [ctRun_advance A i (s ++ nul :: t) index (s.getD index nul) hc1 hne hma,
          ctRun_advance A i (literal s) index (s.getD index nul) hc2 hne hma]
        exact ih _ (index + 1) (by omega) (by omega)
      · have hma' : (A.node i).match_any (s.getD index nul) = false :=
          Bool.not_eq_true _ ▸ hma
        rw [ctRun_reject A i (s ++ nul :: t) index (s.getD index nul) hc1 hne hma',
          ctRun_reject A i (literal s) index (s.getD index nul) hc2 hne hma']

instance (A : Automaton) : Decidable (WellFormed A) := by
  unfold WellFormed; infer_instance

instance (A : Automaton) : Decidable (NoDupLabels A) := by
  unfold NoDupLabels; infer_instance

/-! ### Claim theorems -/

/-- C1, counterexample: on the single accepting edge-free node (which is
well-formed and has no duplicate-labeled transitions) and the one-byte
string `"\0"`, the static evaluator — which reads the literal's bytes
`['\0', '\0']` and stops at the first NUL — answers `true`, while the
dynamic evaluator consumes the NUL byte as an ordinary character, finds
no matching edge, and answers `false`.  So the two evaluators do not
agree on every finite string. -/
theorem claim1_counterexample :
    WellFormed acceptOnly ∧ NoDupLabels acceptOnly ∧
    ctRun acceptOnly 0 (literal [nul]) 0 = true ∧ rtRun acceptOnly 0 [nul] = false := by
  refine ⟨by decide, by decide, ?_, ?_⟩
  · exact ctRunFuel_sound _ 3 _ _ 0 _ (by decide)
  · rw [rtRun]; exact dispatchFuel_sound _ 3 _ _ 0 _ (by decide)

/-- C1, amended: for every automaton without duplicate-labeled
transitions on any single state and every finite string **that contains
no NUL byte**, the static evaluator run on the string's literal and the
dynamic evaluator run on the string return the same boolean verdict. -/
theorem claim1_agreement (A : Automaton) (i : Nat) (s : List Byte)
    (hwf : WellFormed A) (hnd : NoDupLabels A) (hs : nul ∉ s) :
    ctRun A i (literal s) 0 = rtRun A i s :=
  ctRun_eq_dispatch A i s hs

/-- C1, witness: the amended agreement at the `{01}*` automaton and the
string `"01"`. -/
theorem claim1_witness :
    WellFormed dfa01Star ∧ NoDupLabels dfa01Star ∧ nul ∉ ([48, 49] : List Byte) ∧
    ctRun dfa01Star 0 (literal [48, 49]) 0 = rtRun dfa01Star 0 [48, 49] :=
  ⟨by decide, by decide, by decide,
    claim1_agreement dfa01Star 0 [48, 49] (by decide) (by decide) (by decide)⟩

/-- C5: the static evaluator treats the first NUL byte of the literal as
end-of-input (any bytes after it never influence the verdict), while the
dynamic evaluator processes all characters and matches NUL like any other
label (it follows a `'\0'`-labeled edge); consequently the two evaluators
return different verdicts on an input with an embedded NUL: on `"\0"` the
single accepting node yields `true` statically and `false` dynamically. -/
theorem claim5_nul_divergence :
    (∀ (A : Automaton) (i : Nat) (s t : List Byte) (index : Nat), nul ∉ s →
      index ≤ s.length →
      ctRun A i (s ++ nul :: t) index = ctRun A i (literal s) index) ∧
    rtRun nulEdgeAut 0 [nul] = true ∧
    ctRun acceptOnly 0 (literal [nul]) 0 = true ∧ rtRun acceptOnly 0 [nul] = false := by
  refine ⟨?_, ?_, ?_, ?_⟩
  · intro A i s t index hs h1
    exact ctRun_nulsplit_aux A s t hs s.length i index h1 (by omega)
  · rw [rtRun]; exact dispatchFuel_sound _ 3 _ _ 0 _ (by decide)
  · exact ctRunFuel_sound _ 3 _ _ 0 _ (by decide)
  · rw [rtRun]; exact dispatchFuel_sound _ 3 _ _ 0 _ (by decide)

/-- C5, witness: the truncation part applied at the accepting node with
the literal bytes `['1', '\0', '2']`: the trailing `'2'` is ignored. -/
theorem claim5_witness :
    ctRun acceptOnly 0 ([49] ++ nul :: [50]) 0 = ctRun acceptOnly 0 (literal [49]) 0 :=
  claim5_nul_divergence.1 acceptOnly 0 [49] [50] 0 (by decide) (by decide)

/-- C6: for every node and character, the unordered any-match fold
`match_any` is true exactly when the ordered first-match scan finds a
matching edge; whenever the scan finds a destination, the type-level
finder resolves to that same destination; hence the two evaluators agree
on every automaton — including states with duplicate-labeled transitions
— for every NUL-free string. -/
theorem claim6_existence_equiv :
    (∀ (n : NodeT) (c : Byte), n.match_any c = (firstMatch c n.edges).isSome) ∧
    (∀ (n : NodeT) (c : Byte) (self d : Nat),
      firstMatch c n.edges = some d → n.nextIdx self c = d) ∧
    (∀ (A : Automaton) (i : Nat) (s : List Byte), nul ∉ s →
      ctRun A i (literal s) 0 = rtRun A i s) := by
  refine ⟨match_any_eq_isSome, ?_, ?_⟩
  · intro n c self d h
    rw [NodeT.nextIdx, transitionFinder_eq_getD, h]
    rfl
  · intro A i s hs
    exact ctRun_eq_dispatch A i s hs

/-- C6, witness: agreement on a state with two `'0'`-labeled transitions
to different destinations. -/
theorem claim6_witness :
    nul ∉ ([48] : List Byte) ∧
    ctRun dupLabelAut 0 (literal [48]) 0 = rtRun dupLabelAut 0 [48] :=
  ⟨by decide, claim6_existence_equiv.2.2 dupLabelAut 0 [48] (by decide)⟩

/-- C7: evaluation of a string of length N terminates within N + 1
recursion frames, for every automaton (self-loops and cycles included)
and every finite string, embedded NUL bytes included: with fuel N + 1
the fuelled dynamic evaluator already produces the dynamic verdict, and
the fuelled static evaluator on the string's literal already produces
the static verdict (each frame consumes one unit of fuel and strictly
increases the position, which the end-of-input tests bound by the input
length). -/
theorem claim7_depth_bound (A : Automaton) (i : Nat) (s : List Byte) :
    dispatchFuel A (s.length + 1) i s 0 = some (rtRun A i s) ∧
    ctRunFuel A (s.length + 1) i (literal s) 0 = some (ctRun A i (literal s) 0) := by
  constructor
  · rw [rtRun]; exact dispatchFuel_complete A (s.length + 1) i s 0 (by omega)
  · exact ctRunFuel_literal_complete A s (s.length + 1) i 0 (by omega) (by omega)

/-- C8: the concrete fixtures: the 4-state alternating-bit automaton
accepts `""`, `"01"`, `"0101"` and rejects `"011"`, `"x"`, and the
branching automaton rejects `""` and accepts `"0"` and `"1"` — under
both the static and the dynamic evaluator. -/
theorem claim8_fixtures :
    (ctRun dfa01Star 0 (literal []) 0 = true ∧
     ctRun dfa01Star 0 (literal [48, 49]) 0 = true ∧
     ctRun dfa01Star 0 (literal [48, 49, 48, 49]) 0 = true ∧
     ctRun dfa01Star 0 (literal [48, 49, 49]) 0 = false ∧
     ctRun dfa01Star 0 (literal [120]) 0 = false) ∧
    (rtRun dfa01Star 0 [] = true ∧
     rtRun dfa01Star 0 [48, 49] = true ∧
     rtRun dfa01Star 0 [48, 49, 48, 49] = true ∧
     rtRun dfa01Star 0 [48, 49, 49] = false ∧
     rtRun dfa01Star 0 [120] = false) ∧
    (ctRun dfaBranch 0 (literal []) 0 = false ∧
     ctRun dfaBranch 0 (literal [48]) 0 = true ∧
     ctRun dfaBranch 0 (literal [49]) 0 = true) ∧
    (rtRun dfaBranch 0 [] = false ∧
     rtRun dfaBranch 0 [48] = true ∧
     rtRun dfaBranch 0 [49] = true) := by
  refine ⟨⟨?_, ?_, ?_, ?_, ?_⟩, ⟨?_, ?_, ?_, ?_, ?_⟩, ⟨?_, ?_, ?_⟩, ⟨?_, ?_, ?_⟩⟩ <;>
    first
      | exact ctRunFuel_sound _ 10 _ _ 0 _ (by decide)
      | (rw [rtRun]; exact dispatchFuel_sound _ 10 _ _ 0 _ (by decide))

/-- C2: first-match priority for every label, the NUL byte included: on
a state whose edge list contains two transitions with the same label `c`
but different destinations, with no earlier transition matching `c`, the
type-level resolver yields the first-declared destination, the dynamic
scan selects that same destination, a dynamic evaluation step consuming
`c` moves to it, and so does a static evaluation step consuming `c` (the
static evaluator only ever consumes non-NUL bytes, as it stops at the
first NUL). -/
theorem claim2_first_match (A : Automaton) (i : Nat) (c : Byte) (d1 d2 : Nat)
    (pre mid rest : List EdgeT) (input S : List Byte) (index : Nat)
    (hedges : (A.node i).edges = pre ++ (⟨c, d1⟩ :: (mid ++ (⟨c, d2⟩ :: rest))))
    (hpre : ∀ x ∈ pre, x.check c = false) (hne : d1 ≠ d2) :
    (A.node i).nextIdx i c = d1 ∧
    firstMatch c (A.node i).edges = some d1 ∧
    (input.getD index nul = c → index < input.length →
      dispatch A i input index = dispatch A d1 input (index + 1)) ∧
    (c ≠ nul → S.getD index nul = c →
      ctRun A i S index = ctRun A d1 S (index + 1)) := by
  have hfm : firstMatch c (A.node i).edges = some d1 := by
    rw [hedges]
    exact firstMatch_append c pre ⟨c, d1⟩ _ hpre (by simp [EdgeT.check])
  have hnext : (A.node i).nextIdx i c = d1 := by
    rw [NodeT.nextIdx, transitionFinder_eq_getD, hfm]
    rfl
  have hma : (A.node i).match_any c = true := by
    rw [match_any_eq_isSome, hfm]
    rfl
  refine ⟨hnext, hfm, ?_, ?_⟩
  · intro hgd hlt
    exact dispatch_step_some A i input index d1 hlt (by rw [hgd, hfm])
  · intro hcnul hgd
    rw [ctRun_advance A i S index c hgd hcnul hma, hnext]

/-- C2, witness: on the state with edges `'0'→1` and `'0'→2` the
resolver, the scan, and one step of each evaluator all pick destination
1, the first-declared one; and on the state with edges `'\0'→1` and
`'\0'→2` the resolver and a dynamic step consuming `'\0'` likewise pick
destination 1. -/
theorem claim2_witness :
    (dupLabelAut.node 0).nextIdx 0 48 = 1 ∧
    firstMatch 48 (dupLabelAut.node 0).edges = some 1 ∧
    dispatch dupLabelAut 0 [48] 0 = dispatch dupLabelAut 1 [48] 1 ∧
    ctRun dupLabelAut 0 [48, nul] 0 = ctRun dupLabelAut 1 [48, nul] 1 ∧
    (dupNulAut.node 0).nextIdx 0 nul = 1 ∧
    firstMatch nul (dupNulAut.node 0).edges = some 1 ∧
    dispatch dupNulAut 0 [nul] 0 = dispatch dupNulAut 1 [nul] 1 := by
  have h := claim2_first_match dupLabelAut 0 48 1 2 [] [] [] [48] [48, nul] 0
    (by rfl) (by simp) (by decide)
  have h0 := claim2_first_match dupNulAut 0 nul 1 2 [] [] [] [nul] [nul] 0
    (by rfl) (by simp) (by decide)
  exact ⟨h.1, h.2.1, h.2.2.1 (by decide) (by decide), h.2.2.2 (by decide) (by decide),
    h0.1, h0.2.1, h0.2.2.1 (by decide) (by decide)⟩

/-- C3: the dynamic evaluator returns the node's accept flag when the
position has reached the end of the input; otherwise either some edge
matches the current character — and the result is that of evaluating
from the first matching edge's destination at position + 1 — or no edge
matches and the result is `false`. -/
theorem claim3_dispatch_spec (A : Automaton) (i : Nat) (input : List Byte) (index : Nat) :
    (input.length ≤ index → dispatch A i input index = (A.node i).accept) ∧
    (index < input.length →
      (∃ pre e rest, (A.node i).edges = pre ++ e :: rest ∧
        (∀ x ∈ pre, x.check (input.getD index nul) = false) ∧
        e.check (input.getD index nul) = true ∧
        dispatch A i input index = dispatch A e.next input (index + 1)) ∨
      ((∀ x ∈ (A.node i).edges, x.check (input.getD index nul) = false) ∧
        dispatch A i input index = false)) := by
  constructor
  · exact dispatch_end A i input index
  · intro hlt
    cases hfm : firstMatch (input.getD index nul) (A.node i).edges with
    | some d =>
      left
      obtain ⟨pre, e, rest, heq, hpre, hce, hnext⟩ := firstMatch_eq_some _ _ _ hfm
      refine ⟨pre, e, rest, heq, hpre, hce, ?_⟩
      rw [dispatch_step_some A i input index d hlt hfm, hnext]
    | none =>
      right
      exact ⟨(firstMatch_eq_none_iff _ _).mp hfm,
        dispatch_step_none A i input index hlt hfm⟩

/-- C3, witness: past the end of `"0"` at the accepting state Q1, the
dynamic evaluator returns Q1's accept flag. -/
theorem claim3_witness :
    dispatch dfaBranch 1 [48] 1 = (dfaBranch.node 1).accept :=
  (claim3_dispatch_spec dfaBranch 1 [48] 1).1 (by decide)

/-- C4: on a NUL-free string's literal, when the position reaches the end
of the string the static evaluator's verdict is exactly the current
state's accept flag; at any earlier position the verdict is computed
without consulting the flag — it is either the verdict from the resolved
next state or `false`. -/
theorem claim4_ct_end (A : Automaton) (i : Nat) (s : List Byte) (index : Nat)
    (hs : nul ∉ s) :
    (index = s.length → ctRun A i (literal s) index = (A.node i).accept) ∧
    (index < s.length → ctRun A i (literal s) index =
      (if (A.node i).match_any (s.getD index nul) then
        ctRun A ((A.node i).nextIdx i (s.getD index nul)) (literal s) (index + 1)
      else false)) := by
  constructor
  · intro h
    exact ctRun_nul A i (literal s) index (literal_getD_ge s index (by omega))
  · intro hlt
    have hc : (literal s).getD index nul = s.getD index nul := literal_getD_lt s index hlt
    have hne : s.getD index nul ≠ nul := getD_ne_nul_of_not_mem s hs index hlt
    by_cases hma : (A.node i).match_any (s.getD index nul)
    · rw [if_pos hma]
      exact ctRun_advance A i (literal s) index _ hc hne hma
    · rw [if_neg hma]
      exact ctRun_reject A i (literal s) index _ hc hne (Bool.not_eq_true _ ▸ hma)

/-- C4, witness: at the end of the empty string the static verdict on the
single accepting node is that node's accept flag. -/
theorem claim4_witness :
    ctRun acceptOnly 0 (literal []) 0 = (acceptOnly.node 0).accept :=
  (claim4_ct_end acceptOnly 0 [] 0 (by decide)).1 (by decide)

/-- C9: a transition pack containing any non-`Edge` argument violates the
`Node` static assertion (definition-time rejection), while on the
evaluation path both evaluators always deliver a boolean verdict: with
enough fuel the fuelled evaluators never fail to answer. -/
theorem claim9_construction (args : List TypeArg) (t : TypeArg)
    (A : Automaton) (i : Nat) (input s : List Byte)
    (ht : t ∈ args) (hedge : is_edge t = false) (hs : nul ∉ s) :
    nodeAssert args = false ∧
    (∃ b : Bool, dispatchFuel A (input.length + 1) i input 0 = some b) ∧
    (∃ b : Bool, ctRunFuel A (s.length + 1) i (literal s) 0 = some b) := by
  refine ⟨?_, ⟨_, dispatchFuel_complete A _ i input 0 (by omega)⟩,
    ⟨_, ctRunFuel_literal_complete A s _ i 0 (by omega) (by omega)⟩⟩
  rw [nodeAssert]
  simp only [List.all_eq_false]
  exact ⟨t, ht, by simp [hedge]⟩

/-- C9, witness: a pack holding an `Edge` and a non-`Edge` argument fails
the assertion, and both fuelled evaluators answer on the branching
automaton with input `"0"`. -/
theorem claim9_witness :
    nodeAssert [TypeArg.edgeArg 48 1, TypeArg.otherArg 0] = false ∧
    (∃ b : Bool,
      dispatchFuel dfaBranch (([48] : List Byte).length + 1) 0 [48] 0 = some b) ∧
    (∃ b : Bool,
      ctRunFuel dfaBranch (([48] : List Byte).length + 1) 0 (literal [48]) 0 = some b) :=
  claim9_construction [TypeArg.edgeArg 48 1, TypeArg.otherArg 0] (TypeArg.otherArg 0)
    dfaBranch 0 [48] [48] (by decide) (by decide) (by decide)

/-- C10: when no edge of a node matches `c`, the type-level resolver
falls back to the node itself; when some edge matches, the resolver's
value does not depend on that fallback at all; and the static evaluator
returns `false` without consulting the resolver whenever `match_any`
fails, so the fallback is unreachable during static evaluation. -/
theorem claim10_fallback (n : NodeT) (c : Byte) (self self' : Nat)
    (A : Automaton) (i : Nat) (S : List Byte) (index : Nat) :
    ((∀ x ∈ n.edges, x.check c = false) → n.nextIdx self c = self) ∧
    (n.match_any c = true → n.nextIdx self c = n.nextIdx self' c) ∧
    (S.getD index nul ≠ nul → (A.node i).match_any (S.getD index nul) = false →
      ctRun A i S index = false) := by
  refine ⟨?_, ?_, ?_⟩
  · intro h
    rw [NodeT.nextIdx, transitionFinder_eq_getD,
      (firstMatch_eq_none_iff c n.edges).mpr h]
    rfl
  · intro h
    rw [match_any_eq_isSome] at h
    obtain ⟨d, hd⟩ := Option.isSome_iff_exists.mp h
    rw [NodeT.nextIdx, transitionFinder_eq_getD, hd, NodeT.nextIdx,
      transitionFinder_eq_getD, hd]
    rfl
  · intro hne hma
    exact ctRun_reject A i S index _ rfl hne hma

/-- C10, witness: on the branching automaton's start state and the
unmatched character `'x'`, the resolver falls back to the state itself
and the static evaluator rejects. -/
theorem claim10_witness :
    (dfaBranch.node 0).nextIdx 0 120 = 0 ∧ ctRun dfaBranch 0 [120, nul] 0 = false := by
  have h := claim10_fallback (dfaBranch.node 0) 120 0 5 dfaBranch 0 [120, nul] 0
  exact ⟨h.1 (by decide), h.2.2 (by decide) (by decide)⟩

end DFA
